import Mathlib

/-!
Verification development for `fetch/data_sequence.py` (`DataGenerator`).

The embedding models floating-point values in exact arithmetic: a value is
either an ordinary rational, a quantity of the form `a + b / sqrt v`
(which arises from dividing by a standard deviation, the only square root
in the pipeline), `NaN`, or a signed infinity.  Rounding and overflow of
IEEE formats are not modelled; the special-value semantics (NaN/Inf
propagation, division by a zero standard deviation, `np.nan_to_num`,
`X[X != X] = 0.0`) are modelled faithfully.
-/

set_option allowUnsafeReducibility true
attribute [local semireducible] Rat.add Rat.mul Rat.sub Rat.neg Rat.div Rat.inv Rat.blt

namespace Fetch

/-- Exact model of a numpy floating-point scalar.
`q x` is the finite value `x`; `rt a b v` denotes `a + b / Real.sqrt v`
(constructed only with `v > 0`, by division by a nonzero standard
deviation `sqrt v`); `nan` is NaN; `inf true` is `+inf`, `inf false` is `-inf`. -/
inductive FV where
  | q : ℚ → FV
  | rt : ℚ → ℚ → ℚ → FV
  | nan : FV
  | inf : Bool → FV
deriving DecidableEq

namespace FV

/-- Is the value NaN? (`x != x` in numpy holds exactly for NaN.) -/
def isNaN : FV → Bool
  | nan => true
  | _ => false

/-- Is the value an infinity? -/
def isInf : FV → Bool
  | inf _ => true
  | _ => false

/-- IEEE addition on the model.  The mixed-radical case `rt _ _ v + rt _ _ w`
with `v ≠ w` is not representable in this domain; it never occurs in the
pipeline (all `rt` values of one sample share the radical of that sample's
standard deviation), and is mapped to `nan`. -/
def add : FV → FV → FV
  | nan, _ => nan
  | _, nan => nan
  | inf s, inf t => if s = t then inf s else nan
  | inf s, _ => inf s
  | _, inf s => inf s
  | q x, q y => q (x + y)
  | q x, rt a b v => rt (a + x) b v
  | rt a b v, q x => rt (a + x) b v
  | rt a b v, rt c d w => if v = w then rt (a + c) (b + d) v else nan

/-- IEEE negation on the model. -/
def neg : FV → FV
  | nan => nan
  | inf s => inf (!s)
  | q x => q (-x)
  | rt a b v => rt (-a) (-b) v

/-- IEEE subtraction on the model (in particular `inf - inf = nan`). -/
def sub (x y : FV) : FV := add x (neg y)

/-- Multiplication by `1/2` (numpy computes the median of an even-length
array as the mean of the two middle elements; `inf/2 = inf`). -/
def half : FV → FV
  | nan => nan
  | inf s => inf s
  | q x => q (x / 2)
  | rt a b v => rt (a / 2) (b / 2) v

/-- Decide `r ≤ b / sqrt v` for rationals, assuming `v > 0`. -/
def ratLeRad (r b v : ℚ) : Bool :=
  if 0 ≤ b then (if r ≤ 0 then true else decide (r * r * v ≤ b * b))
  else (if 0 ≤ r then false else decide (b * b ≤ r * r * v))

/-- Decide `b / sqrt v ≤ r` for rationals, assuming `v > 0`. -/
def radLeRat (b v r : ℚ) : Bool :=
  if 0 ≤ b then (if r < 0 then false else decide (b * b ≤ r * r * v))
  else (if 0 ≤ r then true else decide (r * r * v ≤ b * b))

/-- Decide `b / sqrt v ≤ d + c / sqrt w` for rationals, assuming `v, w > 0`,
by sign analysis and squaring. -/
def twoRadLe (b v c w d : ℚ) : Bool :=
  if 0 ≤ b then
    if ratLeRad (-d) c w then
      ratLeRad (b * b / v - d * d - c * c / w) (2 * d * c) w
    else false
  else
    if ratLeRad (-d) c w then true
    else radLeRat (2 * d * c) w (b * b / v - d * d - c * c / w)

/-- Total comparison used to model numpy's sort order on the values that
occur in this pipeline.  `-inf` is least, `+inf` is greatest; NaN is
treated as greatest (numpy sorts NaN to the end, and `medianF` returns
NaN before ever comparing one). -/
def le : FV → FV → Bool
  | nan, nan => true
  | _, nan => true
  | nan, _ => false
  | inf false, _ => true
  | _, inf true => true
  | inf true, _ => false
  | _, inf false => false
  | q x, q y => decide (x ≤ y)
  | q x, rt a b v => ratLeRad (x - a) b v
  | rt a b v, q x => radLeRat b v (x - a)
  | rt a b v, rt c d w => twoRadLe b v d w (c - a)

end FV

/-- Insert into a sorted list under `FV.le`. -/
def insertLe (x : FV) : List FV → List FV
  | [] => [x]
  | y :: ys => if FV.le x y then x :: y :: ys else y :: insertLe x ys

/-- Sorting model for numpy's sort on the value domain. -/
def sortLe : List FV → List FV
  | [] => []
  | x :: xs => insertLe x (sortLe xs)

/-- `np.median` on a flattened array: NaN if any entry is NaN (numpy checks
the partitioned tail for NaN and returns NaN); otherwise the middle element
of the sorted array, or the mean of the two middle elements for even length.
`np.median` of an empty array is NaN. -/
def medianF (l : List FV) : FV :=
  if l.isEmpty then FV.nan
  else if l.any FV.isNaN then FV.nan
  else
    let s := sortLe l
    let n := s.length
    if n % 2 = 1 then s.getD (n / 2) FV.nan
    else FV.half (FV.add (s.getD (n / 2 - 1) FV.nan) (s.getD (n / 2) FV.nan))

/-- The largest finite `float32`, `np.finfo(np.float32).max` (≈ 3.4028235e38,
exactly `(2^24 - 1) * 2^104`): the value `np.nan_to_num` substitutes for
`+inf` in a `float32` array. -/
def f32max : ℚ := Rat.mk' 340282346638528859811704183484516925440 1

/-- `np.nan_to_num` with default arguments on a `float32` array:
NaN becomes `0.0`, `+inf` becomes the largest finite `float32`, `-inf` its
negation.  The result is always finite. -/
def nanToNum : FV → ℚ
  | FV.q x => x
  | FV.rt _ _ _ => 0
  | FV.nan => 0
  | FV.inf true => f32max
  | FV.inf false => -f32max

/-- `astype(np.float32)` in the exact-value model: the identity on the
special values and on finite values (float32 rounding is not modelled). -/
def astype32 : FV → FV := fun x => x

/-- Mean of a rational list (`np.mean` of the flattened array; `0` on the
empty list, which only feeds the equally-degenerate empty branches). -/
def meanQ (l : List ℚ) : ℚ := l.sum / l.length

/-- Population variance (`np.var`, `ddof = 0`) of the flattened array. -/
def varQ (l : List ℚ) : ℚ := (l.map (fun x => (x - meanQ l) * (x - meanQ l))).sum / l.length

/-- `data /= np.std(data)` on a (finite-valued) flattened array: the standard
deviation is `sqrt (varQ l)`; dividing `x` by it gives `x / sqrt v`, i.e.
`rt 0 x v`, when `v ≠ 0`, and the IEEE results `0/0 = nan`, `±x/0 = ±inf`
when the variance is zero. -/
def divStd (l : List ℚ) : List FV :=
  let v := varQ l
  if v = 0 then l.map (fun x => if x = 0 then FV.nan else FV.inf (decide (0 < x)))
  else l.map (fun x => FV.rt 0 x v)

/-- `data -= np.median(data)` on the flattened array. -/
def subMedian (l : List FV) : List FV :=
  let m := medianF l
  l.map (fun x => FV.sub x m)

/-- The two normalization statements `data /= np.std(data)`;
`data -= np.median(data)`. -/
def normalizeFlat (l : List ℚ) : List FV := subMedian (divStd l)

/-- Least-squares linear detrend of one 1-D slice along the last axis
(`scipy.signal.detrend`, `type='linear'`): subtract the best-fit affine
function of the index.  For fewer than two points the affine fit is exact
and the residual is zero. -/
def detrendRow (x : List ℚ) : List ℚ :=
  let n := x.length
  if n ≤ 1 then List.replicate n 0
  else
    let nq : ℚ := n
    let xbar := x.sum / nq
    let tbar := (nq - 1) / 2
    let sxx := ((List.range n).map (fun i => ((i : ℚ) - tbar) * ((i : ℚ) - tbar))).sum
    let sxy := (x.enum.map (fun p => (p.2 - xbar) * ((p.1 : ℚ) - tbar))).sum
    let b := sxy / sxx
    x.enum.map (fun p => p.2 - (xbar + b * ((p.1 : ℚ) - tbar)))

/-- Matrix transpose (`.T`) for well-formed (rectangular) row lists. -/
def transposeM (m : List (List α)) : List (List α) :=
  (List.range ((m.headD []).length)).map (fun j => m.filterMap (fun r => r[j]?))

/-- A raw 2-D sample matrix. -/
abbrev Mat := List (List FV)

/-- `s.detrend(np.nan_to_num(data_ft.astype(np.float32).T))`, then
`/= np.std`, `-= np.median`, flattened in C order (the later `np.reshape`
preserves exactly this flattened order). -/
def processFT (m : Mat) : List FV :=
  normalizeFlat
    ((((transposeM (m.map (fun r => r.map astype32))).map
        (fun r => r.map nanToNum)).map detrendRow).flatten)

/-- `np.nan_to_num(data_dt.astype(np.float32))`, then `/= np.std`,
`-= np.median` — no transpose and no detrend on the dispersion-time matrix. -/
def processDT (m : Mat) : List FV :=
  normalizeFlat ((m.map (fun r => r.map (fun x => nanToNum (astype32 x)))).flatten)

/-- The `DataGenerator` state.  `indexes` is the Permutation (`self.indexes`).
`noise_mean`/`noise_std` parametrize `np.random.normal`; since the model is
deterministic, the concrete noise sample drawn on a call is passed to
`getItem` as an explicit argument rather than generated from them. -/
structure DataGenerator where
  result_list : List (Mat × Mat)
  labels : List ℤ
  batch_size : ℕ
  ft_dim : ℕ × ℕ
  dt_dim : ℕ × ℕ
  n_channels : ℕ
  n_classes : ℕ
  shuffle : Bool
  noise : Bool
  noise_mean : ℚ
  noise_std : ℚ
  indexes : List ℕ

/-- Python sequence slicing `l[a:b]` with step 1: negative bounds count from
the end, bounds are clamped, never an error. -/
def pySlice (l : List α) (a b : ℤ) : List α :=
  let n : ℤ := l.length
  let s : ℤ := if a < 0 then max (n + a) 0 else min a n
  let e : ℤ := if b < 0 then max (n + b) 0 else min b n
  (l.drop s.toNat).take (e - s).toNat

/-- Python sequence slicing `l[a:]` with step 1. -/
def pySliceFrom (l : List α) (a : ℤ) : List α :=
  let n : ℤ := l.length
  let s : ℤ := if a < 0 then max (n + a) 0 else min a n
  l.drop s.toNat

/-- `__len__`: `int(np.ceil(len(self.result_list) / self.batch_size))`,
modelled with the exact ceiling of the rational quotient. -/
def DataGenerator.len (g : DataGenerator) : ℕ :=
  ⌈(g.result_list.length : ℚ) / (g.batch_size : ℚ)⌉₊

/-- The index-resolution step of `__getitem__`:
`self.indexes[index*B : (index+1)*B]` when `index < self.__len__()`
(note a negative Python `int` also satisfies this comparison), else
`self.indexes[index*B :]`. -/
def resolveIdx (g : DataGenerator) (p : ℤ) : List ℕ :=
  if p < (g.len : ℤ) then
    pySlice g.indexes (p * g.batch_size) ((p + 1) * g.batch_size)
  else
    pySliceFrom g.indexes (p * g.batch_size)

/-- The error outcomes the batch path can surface: an out-of-range index
into `result_list`/`labels` (`IndexError`), a `np.reshape` size mismatch
(`ValueError`), and an out-of-range class label at one-hot encoding. -/
inductive GenErr where
  | indexErr : GenErr
  | shapeErr : GenErr
  | labelErr : GenErr
deriving DecidableEq

/-- The value returned by `__getitem__`: the stacked `data_freq_time` and
`data_dm_time` arrays (one flattened row per sample) and the one-hot label
matrix. -/
structure Batch where
  X : List (List FV)
  Y : List (List FV)
  labels : List (List ℚ)
deriving DecidableEq

/-- `mapM` over the `Except` monad, by structural recursion (errors surface
in left-to-right order, as Python raises them). -/
def exMapM (f : α → Except ε β) : List α → Except ε (List β)
  | [] => .ok []
  | x :: xs =>
    match f x with
    | .error e => .error e
    | .ok y =>
      match exMapM f xs with
      | .error e => .error e
      | .ok ys => .ok (y :: ys)

/-- `list_IDs_temp = [self.result_list[k] for k in indexes]`: all lookups
happen before the processing loop; an out-of-range `k` is an `IndexError`. -/
def lookupSamples (g : DataGenerator) (ids : List ℕ) :
    Except GenErr (List (Mat × Mat)) :=
  exMapM (fun k =>
    match g.result_list[k]? with
    | some s => .ok s
    | none => .error .indexErr) ids

/-- `np.reshape(data, (*dim, n_channels))` in flattened form: C-order
reshaping keeps the flattened sequence and only checks that the element
count matches the target size. -/
def checkReshape (l : List FV) (target : ℕ) : Except GenErr (List FV) :=
  if l.length = target then .ok l else .error .shapeErr

/-- One iteration of the generation loop: process and reshape the
frequency-time matrix into `X[i,]`, process and reshape the
dispersion-time matrix into `Y[i,]`, then `y[i] = self.labels[indexes[i]]`. -/
def buildRow (g : DataGenerator) (s : Mat × Mat) (k : ℕ) :
    Except GenErr (List FV × List FV × ℤ) :=
  match checkReshape (processFT s.1) (g.ft_dim.1 * g.ft_dim.2 * g.n_channels) with
  | .error e => .error e
  | .ok xr =>
    match checkReshape (processDT s.2) (g.dt_dim.1 * g.dt_dim.2 * g.n_channels) with
    | .error e => .error e
    | .ok yr =>
      match g.labels[k]? with
      | some lab => .ok (xr, yr, lab)
      | none => .error .indexErr

/-- One-hot encoding of a class label against `n` classes. -/
def oneHot (n : ℕ) (lab : ℤ) : List ℚ :=
  (List.range n).map (fun j => if (j : ℤ) = lab then 1 else 0)

/-- Modelled from the spec: the external categorical-encoding utility
(`keras.utils.to_categorical`, not part of this repository) converts an
integer label into a one-hot row against the configured class count, and an
out-of-range class label (outside `[0, num_classes)`) is an error the
caller must prevent. -/
def toCategorical (n : ℕ) (lab : ℤ) : Except GenErr (List ℚ) :=
  if 0 ≤ lab ∧ lab < (n : ℤ) then .ok (oneHot n lab) else .error .labelErr

/-- `X += np.random.normal(loc=noise_mean, scale=noise_std, size=X.shape)`,
with the drawn noise array passed explicitly. -/
def addNoiseB (X : List (List FV)) (nu : List (List ℚ)) : List (List FV) :=
  X.zipWith (fun xr nr => xr.zipWith (fun x n => FV.add x (FV.q n)) nr) nu

/-- `__data_generation`: per-sample processing loop, then the batch-level
NaN sweep `X[X != X] = 0.0; Y[Y != Y] = 0.0` (it replaces exactly the NaN
entries and nothing else), then optional noise on `X` only, then one-hot
encoding of the collected label vector. -/
def dataGeneration (g : DataGenerator) (ids : List ℕ) (nu : List (List ℚ)) :
    Except GenErr Batch :=
  match lookupSamples g ids with
  | .error e => .error e
  | .ok samples =>
    match exMapM (fun sk => buildRow g sk.1 sk.2) (samples.zip ids) with
    | .error e => .error e
    | .ok rows =>
      let X0 := rows.map (fun r => r.1.map (fun x => if x.isNaN then FV.q 0 else x))
      let Y := rows.map (fun r => r.2.1.map (fun x => if x.isNaN then FV.q 0 else x))
      let X := if g.noise then addNoiseB X0 nu else X0
      match exMapM (fun r => toCategorical g.n_classes r.2.2) rows with
      | .error e => .error e
      | .ok ls => .ok ⟨X, Y, ls⟩

/-- `__getitem__`: resolve the batch indices, then generate the batch.
`nu` is the noise array drawn by `np.random.normal` on this call (unused
when the noise flag is off). -/
def getItem (g : DataGenerator) (p : ℤ) (nu : List (List ℚ)) :
    Except GenErr Batch :=
  dataGeneration g (resolveIdx g p) nu

/-- `on_epoch_end`: `self.indexes = np.arange(len(self.result_list))`, then
`np.random.shuffle(self.indexes)` if the shuffle flag is set.  `sr` is the
outcome of the in-place shuffle (a rearrangement of the fresh `arange`;
that it is a permutation of its input is numpy's contract and is a
hypothesis of the theorems). -/
def onEpochEnd (g : DataGenerator) (sr : List ℕ) : DataGenerator :=
  { g with indexes := if g.shuffle then sr else List.range g.result_list.length }

/-- `__init__`: store the configuration, then call `on_epoch_end` once. -/
def construct (rl : List (Mat × Mat)) (labels : List ℤ) (B : ℕ)
    (ftd dtd : ℕ × ℕ) (nch ncl : ℕ) (sh noi : Bool) (nm ns : ℚ)
    (sr : List ℕ) : DataGenerator :=
  onEpochEnd
    { result_list := rl, labels := labels, batch_size := B, ft_dim := ftd,
      dt_dim := dtd, n_channels := nch, n_classes := ncl, shuffle := sh,
      noise := noi, noise_mean := nm, noise_std := ns, indexes := [] } sr

section SliceLemmas

variable {α : Type}

/-- Python slicing with nonnegative bounds is drop-then-take. -/
theorem pySlice_natCast (l : List α) (a b : ℕ) :
    pySlice l (a : ℤ) (b : ℤ) = (l.drop a).take (b - a) := by
  unfold pySlice
  have hna : ¬((a : ℤ) < 0) := by omega
  have hnb : ¬((b : ℤ) < 0) := by omega
  simp only [hna, hnb, if_false]
  rcases le_or_lt (a : ℤ) l.length with ha | ha
  · have hsa : min (a : ℤ) l.length = a := min_eq_left ha
    rw [hsa]
    rcases le_or_lt (b : ℤ) l.length with hb | hb
    · have hsb : min (b : ℤ) l.length = b := min_eq_left hb
      rw [hsb, Int.toNat_natCast]
      congr 1
      omega
    · have hsb : min (b : ℤ) l.length = l.length := min_eq_right hb.le
      rw [hsb, Int.toNat_natCast]
      have h1 : ((l.length : ℤ) - a).toNat = l.length - a := by omega
      rw [h1]
      have hlen : (l.drop a).length = l.length - a := List.length_drop a l
      rw [List.take_of_length_le (le_of_eq hlen), List.take_of_length_le]
      omega
  · have hsa : min (a : ℤ) l.length = l.length := min_eq_right ha.le
    rw [hsa]
    have hd1 : l.drop ((l.length : ℤ)).toNat = [] := by
      simp
    have hd2 : l.drop a = [] := List.drop_eq_nil_of_le (by omega)
    rw [Int.toNat_natCast] at hd1 ⊢
    rw [List.drop_length, hd2]
    simp

/-- Python open slicing `l[a:]` with a nonnegative bound is drop. -/
theorem pySliceFrom_natCast (l : List α) (a : ℕ) :
    pySliceFrom l (a : ℤ) = l.drop a := by
  unfold pySliceFrom
  have hna : ¬((a : ℤ) < 0) := by omega
  simp only [hna, if_false]
  rcases le_or_lt (a : ℤ) l.length with ha | ha
  · rw [min_eq_left ha, Int.toNat_natCast]
  · rw [min_eq_right ha.le, Int.toNat_natCast, List.drop_length,
      List.drop_eq_nil_of_le (by omega)]

/-- A Python slice with stop `0` is empty, whatever the start. -/
theorem pySlice_stop_zero (l : List α) (a : ℤ) : pySlice l a 0 = [] := by
  unfold pySlice
  have h0 : ¬((0 : ℤ) < 0) := by omega
  simp only [h0, if_false]
  have hmin : min (0 : ℤ) (l.length : ℤ) = 0 := by omega
  rw [hmin]
  have hs : 0 ≤ (if a < 0 then max ((l.length : ℤ) + a) 0 else min a (l.length : ℤ)) := by
    split
    · exact le_max_right _ _
    · next ha =>
        have h1 : 0 ≤ a := by omega
        exact le_min h1 (by positivity)
  have ht : (0 - (if a < 0 then max ((l.length : ℤ) + a) 0
      else min a (l.length : ℤ))).toNat = 0 := by omega
  rw [ht, List.take_zero]

/-- A fully negative Python slice (`start < 0`, `stop < 0`, both within range)
is a window counted from the end. -/
theorem pySlice_neg_window (l : List α) (a b : ℤ) (ha : a < 0) (hb : b < 0)
    (har : 0 ≤ (l.length : ℤ) + a) :
    pySlice l a b = (l.drop ((l.length : ℤ) + a).toNat).take (b - a).toNat := by
  unfold pySlice
  simp only [ha, hb, if_true]
  rw [max_eq_left har]
  rcases le_or_lt 0 ((l.length : ℤ) + b) with hbr | hbr
  · rw [max_eq_left hbr]
    congr 1
    omega
  · rw [max_eq_right hbr.le]
    have h1 : (0 - ((l.length : ℤ) + a)).toNat = 0 := by omega
    have h2 : (b - a).toNat ≤ ((l.length : ℤ) + b - ((l.length : ℤ) + a)).toNat := by
      omega
    rw [h1, List.take_zero]
    have h3 : (b - a).toNat = 0 := by omega
    rw [h3, List.take_zero]

end SliceLemmas

/-- `__len__ = ceil(N/B)` brackets `N`: `N ≤ B * len < N + B` (for `B ≥ 1`). -/
theorem len_bounds (g : DataGenerator) (hB : 1 ≤ g.batch_size) :
    g.result_list.length ≤ g.batch_size * g.len ∧
    g.batch_size * g.len < g.result_list.length + g.batch_size := by
  set N := g.result_list.length
  set B := g.batch_size
  have hBQ : (0 : ℚ) < (B : ℚ) := by exact_mod_cast hB
  constructor
  · have h1 : (N : ℚ) / (B : ℚ) ≤ (g.len : ℚ) := Nat.le_ceil _
    have h2 : (N : ℚ) ≤ (g.len : ℚ) * (B : ℚ) := (div_le_iff₀ hBQ).1 h1
    have h3 : (N : ℚ) ≤ ((B * g.len : ℕ) : ℚ) := by push_cast; linarith
    exact_mod_cast h3
  · have h1 : (g.len : ℚ) < (N : ℚ) / (B : ℚ) + 1 :=
      Nat.ceil_lt_add_one (by positivity)
    have h2 : (g.len : ℚ) * (B : ℚ) < ((N : ℚ) / (B : ℚ) + 1) * (B : ℚ) :=
      (mul_lt_mul_right hBQ).2 h1
    have h3 : ((N : ℚ) / (B : ℚ) + 1) * (B : ℚ) = (N : ℚ) + (B : ℚ) := by
      field_simp
    have h4 : ((B * g.len : ℕ) : ℚ) < ((N + B : ℕ) : ℚ) := by push_cast; linarith
    exact_mod_cast h4

/-- The ceiling form of `__len__` agrees with `(N + B - 1) / B`. -/
theorem len_eq_ceilDiv (g : DataGenerator) (hB : 1 ≤ g.batch_size) :
    g.len = (g.result_list.length + g.batch_size - 1) / g.batch_size := by
  obtain ⟨h1, h2⟩ := len_bounds g hB
  have hmod := Nat.div_add_mod (g.result_list.length + g.batch_size - 1) g.batch_size
  have hr : (g.result_list.length + g.batch_size - 1) % g.batch_size < g.batch_size :=
    Nat.mod_lt _ (by omega)
  have hk1 : g.result_list.length ≤
      g.batch_size * ((g.result_list.length + g.batch_size - 1) / g.batch_size) := by
    omega
  have hk2 : g.batch_size * ((g.result_list.length + g.batch_size - 1) / g.batch_size) <
      g.result_list.length + g.batch_size := by
    omega
  rcases Nat.lt_trichotomy g.len
    ((g.result_list.length + g.batch_size - 1) / g.batch_size) with h | h | h
  · have hstep : g.batch_size * (g.len + 1) ≤
        g.batch_size * ((g.result_list.length + g.batch_size - 1) / g.batch_size) :=
      Nat.mul_le_mul_left g.batch_size (by omega)
    rw [Nat.mul_add, Nat.mul_one] at hstep
    omega
  · exact h
  · have hstep : g.batch_size *
        (((g.result_list.length + g.batch_size - 1) / g.batch_size) + 1) ≤
        g.batch_size * g.len :=
      Nat.mul_le_mul_left g.batch_size (by omega)
    rw [Nat.mul_add, Nat.mul_one] at hstep
    omega

/-- An in-range batch position resolves to a `drop`/`take` window of the
Permutation. -/
theorem resolveIdx_natCast (g : DataGenerator) (p : ℕ) (hp : p < g.len) :
    resolveIdx g (p : ℤ) =
      (g.indexes.drop (p * g.batch_size)).take g.batch_size := by
  unfold resolveIdx
  have hlt : (p : ℤ) < (g.len : ℤ) := by exact_mod_cast hp
  rw [if_pos hlt]
  have h1 : (p : ℤ) * (g.batch_size : ℤ) = ((p * g.batch_size : ℕ) : ℤ) := by
    push_cast; ring
  have h2 : ((p : ℤ) + 1) * (g.batch_size : ℤ) = (((p + 1) * g.batch_size : ℕ) : ℤ) := by
    push_cast; ring
  rw [h1, h2, pySlice_natCast]
  congr 1
  rw [Nat.succ_mul]
  omega

/-- The length of an in-range resolved batch. -/
theorem resolveIdx_length (g : DataGenerator) (p : ℕ) (hp : p < g.len) :
    (resolveIdx g (p : ℤ)).length =
      min g.batch_size (g.indexes.length - p * g.batch_size) := by
  rw [resolveIdx_natCast g p hp]
  simp [List.length_take, List.length_drop]

/-- Telescoping sum of batch-window lengths. -/
theorem sum_min_window (B N n : ℕ) :
    (∑ p in Finset.range n, min B (N - p * B)) = min (n * B) N := by
  induction n with
  | zero => simp
  | succ n ih =>
      rw [Finset.sum_range_succ, ih, Nat.succ_mul]
      omega

/-- C1: `batch_count()` equals `ceil(N/B)`; every non-final in-range position
resolves to exactly `B` indices; the final position `batch_count()-1`
resolves to exactly `N - B*(batch_count()-1)` indices; and the resolved
index counts over positions `0..batch_count()-1` sum to `N`. -/
theorem c1_batch_partition (g : DataGenerator) (hB : 1 ≤ g.batch_size)
    (hidx : g.indexes.length = g.result_list.length) :
    g.len = (g.result_list.length + g.batch_size - 1) / g.batch_size ∧
    (∀ p : ℕ, p + 1 < g.len → (resolveIdx g (p : ℤ)).length = g.batch_size) ∧
    (1 ≤ g.len → (resolveIdx g ((g.len - 1 : ℕ) : ℤ)).length =
      g.result_list.length - g.batch_size * (g.len - 1)) ∧
    (∑ p in Finset.range g.len, (resolveIdx g (p : ℤ)).length) =
      g.result_list.length := by
  obtain ⟨hlo, hhi⟩ := len_bounds g hB
  have hmul : g.batch_size * (g.len - 1) + g.batch_size = g.batch_size * g.len ∨
      g.len = 0 := by
    rcases Nat.eq_zero_or_pos g.len with h | h
    · exact Or.inr h
    · left
      rw [← Nat.mul_succ]
      congr 1
      omega
  refine ⟨len_eq_ceilDiv g hB, ?_, ?_, ?_⟩
  · intro p hp
    rw [resolveIdx_length g p (by omega), hidx]
    have h1 : g.batch_size * (p + 1) ≤ g.batch_size * (g.len - 1) :=
      Nat.mul_le_mul_left _ (by omega)
    have h2 : g.batch_size * (p + 1) = g.batch_size * p + g.batch_size := by
      rw [Nat.mul_succ]
    have h3 : p * g.batch_size = g.batch_size * p := Nat.mul_comm _ _
    rcases hmul with h4 | h4
    · omega
    · omega
  · intro hlen
    rw [resolveIdx_length g (g.len - 1) (by omega), hidx]
    have h3 : (g.len - 1) * g.batch_size = g.batch_size * (g.len - 1) :=
      Nat.mul_comm _ _
    rcases hmul with h4 | h4
    · omega
    · omega
  · have hterm : ∀ p ∈ Finset.range g.len,
        (resolveIdx g (p : ℤ)).length = min g.batch_size (g.indexes.length - p * g.batch_size) := by
      intro p hp
      exact resolveIdx_length g p (Finset.mem_range.1 hp)
    rw [Finset.sum_congr rfl hterm, sum_min_window, hidx]
    have h5 : g.len * g.batch_size = g.batch_size * g.len := Nat.mul_comm _ _
    omega

/-- C4: for `position >= batch_count()` the resolver takes the defensive
branch `Permutation[position*batch_size:]`, which is empty (and the whole
batch call returns an empty batch without error) once
`position*batch_size >= N`. -/
theorem c4_out_of_range (g : DataGenerator) (p : ℤ) (nu : List (List ℚ))
    (hp : (g.len : ℤ) ≤ p) :
    resolveIdx g p = pySliceFrom g.indexes (p * g.batch_size) ∧
    ((g.indexes.length : ℤ) ≤ p * g.batch_size → resolveIdx g p = [] ∧
      getItem g p nu = .ok ⟨[], [], []⟩) := by
  have hnlt : ¬(p < (g.len : ℤ)) := by omega
  have hbranch : resolveIdx g p = pySliceFrom g.indexes (p * g.batch_size) := by
    unfold resolveIdx
    rw [if_neg hnlt]
  refine ⟨hbranch, ?_⟩
  intro hN
  have hnneg : ¬(p * (g.batch_size : ℤ) < 0) := by
    have h0 : (0 : ℤ) ≤ (g.indexes.length : ℤ) := by positivity
    omega
  have hempty : resolveIdx g p = [] := by
    rw [hbranch]
    simp only [pySliceFrom, hnneg, if_false]
    rw [min_eq_right hN, Int.toNat_natCast, List.drop_length]
  refine ⟨hempty, ?_⟩
  unfold getItem
  rw [hempty]
  cases hnz : g.noise <;>
    simp [dataGeneration, lookupSamples, exMapM, addNoiseB, hnz]

/-- C10: a negative position satisfies the `index < len(self)` test, so it
resolves through ordinary Python negative-index slicing: position `-1`
slices with stop `0` and resolves to nothing, while positions `<= -2` (when
the start stays in range) resolve to a window counted from the end of the
Permutation.  No step of this raises an error. -/
theorem c10_negative_positions (g : DataGenerator) (p : ℤ) (hp : p < 0) :
    resolveIdx g p = pySlice g.indexes (p * g.batch_size) ((p + 1) * g.batch_size) ∧
    resolveIdx g (-1) = [] ∧
    (1 ≤ g.batch_size → p ≤ -2 → 0 ≤ (g.indexes.length : ℤ) + p * g.batch_size →
      resolveIdx g p =
        (g.indexes.drop ((g.indexes.length : ℤ) + p * g.batch_size).toNat).take
          g.batch_size) := by
  have hlen0 : (0 : ℤ) ≤ (g.len : ℤ) := by positivity
  have hbranch : ∀ q : ℤ, q < 0 →
      resolveIdx g q = pySlice g.indexes (q * g.batch_size) ((q + 1) * g.batch_size) := by
    intro q hq
    unfold resolveIdx
    rw [if_pos (by omega)]
  refine ⟨hbranch p hp, ?_, ?_⟩
  · rw [hbranch (-1) (by omega)]
    have h0 : ((-1 : ℤ) + 1) * (g.batch_size : ℤ) = 0 := by ring
    rw [h0, pySlice_stop_zero]
  · intro hB hp2 hrange
    have hBpos : (0 : ℤ) < (g.batch_size : ℤ) := by exact_mod_cast hB
    have ha : p * (g.batch_size : ℤ) < 0 := by
      have : p * (g.batch_size : ℤ) ≤ (-2) * (g.batch_size : ℤ) :=
        mul_le_mul_of_nonneg_right hp2 (by omega)
      omega
    have hb : (p + 1) * (g.batch_size : ℤ) < 0 := by
      have : (p + 1) * (g.batch_size : ℤ) ≤ (-1) * (g.batch_size : ℤ) :=
        mul_le_mul_of_nonneg_right (by omega) (by omega)
      omega
    rw [hbranch p hp, pySlice_neg_window g.indexes _ _ ha hb hrange]
    congr 1
    have : (p + 1) * (g.batch_size : ℤ) - p * (g.batch_size : ℤ) = (g.batch_size : ℤ) := by
      ring
    rw [this, Int.toNat_natCast]

/-- C3: after `on_epoch_end`, provided `np.random.shuffle` only rearranges
the fresh `arange` (its contract), the Permutation is a permutation of
`0..N-1` — no index lost or duplicated — and with the shuffle flag off it is
exactly the identity ordering. -/
theorem c3_epoch_end_permutation (g : DataGenerator) (sr : List ℕ)
    (hsr : sr.Perm (List.range g.result_list.length)) :
    ((onEpochEnd g sr).indexes).Perm (List.range g.result_list.length) ∧
    (g.shuffle = false → (onEpochEnd g sr).indexes = List.range g.result_list.length) := by
  unfold onEpochEnd
  constructor
  · dsimp only
    split
    · exact hsr
    · exact List.Perm.refl _
  · intro h
    dsimp only
    rw [h]
    simp

/-- With the noise flag off, `__data_generation` ignores the drawn noise
array entirely. -/
theorem getItem_noise_off (g : DataGenerator) (hg : g.noise = false) (p : ℤ)
    (nu1 nu2 : List (List ℚ)) : getItem g p nu1 = getItem g p nu2 := by
  unfold getItem dataGeneration
  rcases h1 : lookupSamples g (resolveIdx g p) with e | samples
  · simp only [h1]
  · simp only [h1]
    rcases h2 : exMapM (fun sk => buildRow g sk.1 sk.2) (samples.zip (resolveIdx g p))
      with e | rows
    · simp only [h2]
    · simp only [h2, hg, Bool.false_eq_true, if_false]

/-- C9: with the noise flag off, `get_batch` is a pure function of the
position and the stored state — repeated calls (which differ only in the
noise array freshly drawn per call) return identical batches — and with the
shuffle flag off the constructed generator's Permutation is the identity
ordering, so every in-range position resolves to the identity ordering
sliced by position. -/
theorem c9_noise_off_determinism (rl : List (Mat × Mat)) (labs : List ℤ) (B : ℕ)
    (ftd dtd : ℕ × ℕ) (nch ncl : ℕ) (sh noi : Bool) (nm ns : ℚ) (sr : List ℕ) :
    (noi = false → ∀ (p : ℤ) (nu1 nu2 : List (List ℚ)),
      getItem (construct rl labs B ftd dtd nch ncl sh noi nm ns sr) p nu1 =
        getItem (construct rl labs B ftd dtd nch ncl sh noi nm ns sr) p nu2) ∧
    (sh = false →
      (construct rl labs B ftd dtd nch ncl sh noi nm ns sr).indexes =
        List.range rl.length ∧
      ∀ p : ℕ, p < (construct rl labs B ftd dtd nch ncl sh noi nm ns sr).len →
        resolveIdx (construct rl labs B ftd dtd nch ncl sh noi nm ns sr) (p : ℤ) =
          ((List.range rl.length).drop (p * B)).take B) := by
  constructor
  · intro hnoi p nu1 nu2
    exact getItem_noise_off _ (by simp [construct, onEpochEnd, hnoi]) p nu1 nu2
  · intro hsh
    have hidx : (construct rl labs B ftd dtd nch ncl sh noi nm ns sr).indexes =
        List.range rl.length := by
      simp [construct, onEpochEnd, hsh]
    refine ⟨hidx, ?_⟩
    intro p hp
    rw [resolveIdx_natCast _ p hp, hidx]
    rfl

/-- C7: the dispersion-time output of `get_batch` does not depend on the
noise flag or on the drawn noise (and neither does the error outcome);
with the noise flag on, the returned batch is exactly the noise-off batch
with the drawn noise array added elementwise to the frequency-time stack
only. -/
theorem c7_noise_only_on_ft (g : DataGenerator) (p : ℤ)
    (b1 b2 : Bool) (nu1 nu2 nu : List (List ℚ)) :
    (Except.map Batch.Y (getItem { g with noise := b1 } p nu1) =
      Except.map Batch.Y (getItem { g with noise := b2 } p nu2)) ∧
    (getItem { g with noise := true } p nu =
      Except.map (fun b => ⟨addNoiseB b.X nu, b.Y, b.labels⟩)
        (getItem { g with noise := false } p nu)) := by
  have hb : ∀ (b : Bool) (nub : List (List ℚ)),
      getItem { g with noise := b } p nub =
        match lookupSamples g (resolveIdx g p) with
        | .error e => .error e
        | .ok samples =>
          match exMapM (fun sk => buildRow g sk.1 sk.2) (samples.zip (resolveIdx g p)) with
          | .error e => .error e
          | .ok rows =>
            let X0 := rows.map (fun r => r.1.map (fun x => if x.isNaN then FV.q 0 else x))
            let Y := rows.map (fun r => r.2.1.map (fun x => if x.isNaN then FV.q 0 else x))
            let X := if b then addNoiseB X0 nub else X0
            match exMapM (fun r => toCategorical g.n_classes r.2.2) rows with
            | .error e => .error e
            | .ok ls => .ok ⟨X, Y, ls⟩ := by
    intro b nub
    rfl
  rw [hb b1 nu1, hb b2 nu2, hb true nu, hb false nu]
  generalize lookupSamples g (resolveIdx g p) = r1
  rcases r1 with e | samples
  · exact ⟨rfl, rfl⟩
  · dsimp only
    generalize exMapM (fun sk => buildRow g sk.1 sk.2) (samples.zip (resolveIdx g p)) = r2
    rcases r2 with e | rows
    · exact ⟨rfl, rfl⟩
    · dsimp only
      generalize exMapM (fun r => toCategorical g.n_classes r.2.2) rows = r3
      rcases r3 with e | ls
      · exact ⟨rfl, rfl⟩
      · exact ⟨rfl, rfl⟩

section ExceptLemmas

variable {α β : Type} {ε : Type} {f : α → Except ε β}

/-- A successful `exMapM` preserves length. -/
theorem exMapM_ok_length {l : List α} {ys : List β}
    (h : exMapM f l = .ok ys) : ys.length = l.length := by
  induction l generalizing ys with
  | nil =>
      rw [exMapM] at h
      injection h with h
      rw [← h]
      rfl
  | cons a xs ih =>
      rw [exMapM] at h
      rcases hfa : f a with e | y
      · rw [hfa] at h
        exact Except.noConfusion h
      · rw [hfa] at h
        rcases hrest : exMapM f xs with e2 | ys2
        · rw [hrest] at h
          exact Except.noConfusion h
        · rw [hrest] at h
          injection h with h
          rw [← h]
          simp [ih hrest]

/-- A successful `exMapM` maps index-wise. -/
theorem exMapM_ok_get {l : List α} {ys : List β}
    (h : exMapM f l = .ok ys) (i : ℕ) (x : α) (hx : l[i]? = some x) :
    ∃ y, f x = .ok y ∧ ys[i]? = some y := by
  induction l generalizing ys i with
  | nil => simp at hx
  | cons a xs ih =>
      rw [exMapM] at h
      rcases hfa : f a with e | y
      · rw [hfa] at h
        exact Except.noConfusion h
      · rw [hfa] at h
        rcases hrest : exMapM f xs with e2 | ys2
        · rw [hrest] at h
          exact Except.noConfusion h
        · rw [hrest] at h
          injection h with h
          cases i with
          | zero =>
              simp only [List.getElem?_cons_zero] at hx
              injection hx with hx
              refine ⟨y, by rw [← hx]; exact hfa, ?_⟩
              rw [← h]
              simp
          | succ n =>
              simp only [List.getElem?_cons_succ] at hx
              obtain ⟨z, hz1, hz2⟩ := ih hrest n hx
              refine ⟨z, hz1, ?_⟩
              rw [← h]
              simpa using hz2

/-- Every element of a successful `exMapM` result comes from an element of
the input. -/
theorem exMapM_ok_mem {l : List α} {ys : List β}
    (h : exMapM f l = .ok ys) (y : β) (hy : y ∈ ys) :
    ∃ x ∈ l, f x = .ok y := by
  induction l generalizing ys with
  | nil =>
      rw [exMapM] at h
      injection h with h
      rw [← h] at hy
      simp at hy
  | cons a xs ih =>
      rw [exMapM] at h
      rcases hfa : f a with e | z
      · rw [hfa] at h
        exact Except.noConfusion h
      · rw [hfa] at h
        rcases hrest : exMapM f xs with e2 | ys2
        · rw [hrest] at h
          exact Except.noConfusion h
        · rw [hrest] at h
          injection h with h
          rw [← h] at hy
          rcases List.mem_cons.1 hy with h1 | h1
          · exact ⟨a, List.mem_cons_self _ _, by rw [← h1] at hfa; exact hfa⟩
          · obtain ⟨x, hx1, hx2⟩ := ih hrest h1
            exact ⟨x, List.mem_cons_of_mem _ hx1, hx2⟩

/-- `zip` pairs up index-wise. -/
theorem zip_getElem? {l1 : List α} {l2 : List β} {i : ℕ} {x : α} {y : β}
    (h1 : l1[i]? = some x) (h2 : l2[i]? = some y) :
    (l1.zip l2)[i]? = some (x, y) := by
  induction l1 generalizing l2 i with
  | nil => simp at h1
  | cons a xs ih =>
      cases l2 with
      | nil => simp at h2
      | cons b ys =>
          cases i with
          | zero =>
              simp only [List.getElem?_cons_zero] at h1 h2
              injection h1 with h1
              injection h2 with h2
              simp [List.zip_cons_cons, h1, h2]
          | succ n =>
              simp only [List.getElem?_cons_succ] at h1 h2
              simpa [List.zip_cons_cons] using ih h1 h2

end ExceptLemmas

/-- Inverting a successful reshape: the flattened data is returned unchanged
and its length matches the target size. -/
theorem checkReshape_ok {l : List FV} {t : ℕ} {r : List FV}
    (h : checkReshape l t = .ok r) : r = l ∧ l.length = t := by
  unfold checkReshape at h
  split at h
  · injection h with h
    exact ⟨h.symm, by assumption⟩
  · cases h

/-- Inverting a successful loop iteration: the stored row is the processed
frequency-time and dispersion-time data (with matching reshape sizes), and
the stored label is the label at the sample's original index. -/
theorem buildRow_ok {g : DataGenerator} {s : Mat × Mat} {k : ℕ}
    {row : List FV × List FV × ℤ} (h : buildRow g s k = .ok row) :
    row.1 = processFT s.1 ∧
    (processFT s.1).length = g.ft_dim.1 * g.ft_dim.2 * g.n_channels ∧
    row.2.1 = processDT s.2 ∧
    (processDT s.2).length = g.dt_dim.1 * g.dt_dim.2 * g.n_channels ∧
    g.labels[k]? = some row.2.2 := by
  unfold buildRow at h
  split at h
  · cases h
  · next xr hxr =>
      split at h
      · cases h
      · next yr hyr =>
          split at h
          · next lab hlab =>
              injection h with h
              obtain ⟨hx1, hx2⟩ := checkReshape_ok hxr
              obtain ⟨hy1, hy2⟩ := checkReshape_ok hyr
              rw [← h]
              exact ⟨hx1, hx2, hy1, hy2, hlab⟩
          · cases h

/-- Inverting a successful one-hot encoding step. -/
theorem toCategorical_ok {n : ℕ} {lab : ℤ} {y : List ℚ}
    (h : toCategorical n lab = .ok y) :
    0 ≤ lab ∧ lab < (n : ℤ) ∧ y = oneHot n lab := by
  unfold toCategorical at h
  split at h
  · next hcond =>
      injection h with h
      exact ⟨hcond.1, hcond.2, h.symm⟩
  · cases h

/-- Inverting a successful `__data_generation` run. -/
theorem dataGeneration_ok {g : DataGenerator} {ids : List ℕ}
    {nu : List (List ℚ)} {b : Batch} (h : dataGeneration g ids nu = .ok b) :
    ∃ samples rows ls,
      lookupSamples g ids = .ok samples ∧
      exMapM (fun sk => buildRow g sk.1 sk.2) (samples.zip ids) = .ok rows ∧
      exMapM (fun r => toCategorical g.n_classes r.2.2) rows = .ok ls ∧
      b.labels = ls ∧
      b.Y = rows.map (fun r => r.2.1.map (fun x => if x.isNaN then FV.q 0 else x)) ∧
      b.X = (if g.noise then
          addNoiseB (rows.map (fun r => r.1.map (fun x => if x.isNaN then FV.q 0 else x))) nu
        else rows.map (fun r => r.1.map (fun x => if x.isNaN then FV.q 0 else x))) := by
  unfold dataGeneration at h
  rcases h1 : lookupSamples g ids with e | samples
  · simp only [h1] at h
    exact Except.noConfusion h
  · simp only [h1] at h
    rcases h2 : exMapM (fun sk => buildRow g sk.1 sk.2) (samples.zip ids) with e | rows
    · simp only [h2] at h
      exact Except.noConfusion h
    · simp only [h2] at h
      rcases h3 : exMapM (fun r => toCategorical g.n_classes r.2.2) rows with e | ls
      · simp only [h3] at h
        exact Except.noConfusion h
      · simp only [h3, Except.ok.injEq] at h
        refine ⟨samples, rows, ls, rfl, h2, h3, ?_, ?_, ?_⟩ <;> rw [← h]

/-- C8: in a successful in-range batch, the `i`-th row of the label matrix
is the one-hot encoding (against the configured class count) of
`Labels[Permutation[p*batch_size + i]]` — the label looked up at the
sample's original index — and that label necessarily lies in
`[0, num_classes)` (an out-of-range label would instead have made the
one-hot encoding step fail). -/
theorem c8_label_alignment (g : DataGenerator) (p : ℕ) (nu : List (List ℚ))
    (b : Batch) (hp : p < g.len) (hok : getItem g (p : ℤ) nu = .ok b)
    (i : ℕ) (hi : i < (resolveIdx g (p : ℤ)).length) :
    ∃ k, (resolveIdx g (p : ℤ))[i]? = some k ∧
      g.indexes[p * g.batch_size + i]? = some k ∧
      ∃ lab, g.labels[k]? = some lab ∧ 0 ≤ lab ∧ lab < (g.n_classes : ℤ) ∧
        b.labels[i]? = some (oneHot g.n_classes lab) := by
  obtain ⟨k, hk⟩ : ∃ k, (resolveIdx g (p : ℤ))[i]? = some k := by
    rcases h : (resolveIdx g (p : ℤ))[i]? with _ | k
    · rw [List.getElem?_eq_none_iff] at h
      omega
    · exact ⟨k, rfl⟩
  have hkperm : g.indexes[p * g.batch_size + i]? = some k := by
    have hslice := resolveIdx_natCast g p hp
    rw [hslice] at hk
    have hilt : i < g.batch_size := by
      have := hi
      rw [resolveIdx_length g p hp] at this
      omega
    rw [List.getElem?_take, if_pos hilt, List.getElem?_drop] at hk
    exact hk
  obtain ⟨samples, rows, ls, hsamples, hrows, hls, hblab, hbY, hbX⟩ :=
    dataGeneration_ok hok
  obtain ⟨s, hs1, hs2⟩ := exMapM_ok_get hsamples i k hk
  obtain ⟨row, hrow1, hrow2⟩ := exMapM_ok_get hrows i (s, k) (zip_getElem? hs2 hk)
  obtain ⟨_, _, _, _, hlab⟩ := buildRow_ok hrow1
  obtain ⟨y, hy1, hy2⟩ := exMapM_ok_get hls i row hrow2
  obtain ⟨hge, hlt, hy⟩ := toCategorical_ok hy1
  refine ⟨k, hk, hkperm, row.2.2, hlab, hge, hlt, ?_⟩
  rw [hblab, hy2, hy]

/-- Inserting permutes the extended list. -/
theorem insertLe_perm (x : FV) (l : List FV) : (insertLe x l).Perm (x :: l) := by
  induction l with
  | nil => simp [insertLe]
  | cons y ys ih =>
      unfold insertLe
      split
      · exact List.Perm.refl _
      · exact ((ih.cons y).trans (List.Perm.swap x y ys)).symm.symm

/-- The sorting model permutes its input. -/
theorem sortLe_perm (l : List FV) : (sortLe l).Perm l := by
  induction l with
  | nil => exact List.Perm.refl _
  | cons x xs ih =>
      unfold sortLe
      exact (insertLe_perm x (sortLe xs)).trans (ih.cons x)

/-- Median closure: if every element of a nonempty NaN-free list satisfies a
predicate closed under the two-point mean, the median satisfies it. -/
theorem medianF_closure (Q : FV → Prop)
    (hhalf : ∀ a b : FV, Q a → Q b → Q (FV.half (FV.add a b)))
    (l : List FV) (hne : l ≠ []) (hnan : l.any FV.isNaN = false)
    (hmem : ∀ x ∈ l, Q x) : Q (medianF l) := by
  have hmemS : ∀ x ∈ sortLe l, Q x := fun x hx =>
    hmem x ((sortLe_perm l).mem_iff.1 hx)
  have hlen : (sortLe l).length = l.length := (sortLe_perm l).length_eq
  have hpos : 0 < l.length := List.length_pos.2 hne
  unfold medianF
  rw [if_neg (by simpa [List.isEmpty_iff] using hne), if_neg (by simp [hnan])]
  dsimp only
  split
  · next hodd =>
      have hi : (sortLe l).length / 2 < (sortLe l).length := by omega
      rw [List.getD_eq_getElem _ _ hi]
      exact hmemS _ (List.getElem_mem hi)
  · next heven =>
      have h2 : 2 ≤ (sortLe l).length := by omega
      have hi1 : (sortLe l).length / 2 - 1 < (sortLe l).length := by omega
      have hi2 : (sortLe l).length / 2 < (sortLe l).length := by omega
      rw [List.getD_eq_getElem _ _ hi1, List.getD_eq_getElem _ _ hi2]
      exact hhalf _ _ (hmemS _ (List.getElem_mem hi1)) (hmemS _ (List.getElem_mem hi2))

/-- A list whose elements are all `c` sums to `c * length`. -/
theorem sum_all_eq {l : List ℚ} {c : ℚ} (h : ∀ x ∈ l, x = c) :
    l.sum = c * l.length := by
  induction l with
  | nil => simp
  | cons a xs ih =>
      have ha : a = c := h a (List.mem_cons_self _ _)
      have hx : ∀ x ∈ xs, x = c := fun x hx => h x (List.mem_cons_of_mem _ hx)
      rw [List.sum_cons, ih hx, ha, List.length_cons]
      push_cast
      ring

/-- The mean of a nonempty constant list is the constant. -/
theorem meanQ_const {l : List ℚ} {c : ℚ} (hne : l ≠ []) (h : ∀ x ∈ l, x = c) :
    meanQ l = c := by
  have hpos : 0 < l.length := List.length_pos.2 hne
  have hn : (l.length : ℚ) ≠ 0 := by positivity
  unfold meanQ
  rw [sum_all_eq h, mul_div_assoc, div_self hn, mul_one]

/-- The variance of a constant list is zero. -/
theorem varQ_const {l : List ℚ} {c : ℚ} (h : ∀ x ∈ l, x = c) : varQ l = 0 := by
  rcases List.eq_nil_or_concat l with rfl | _
  · simp [varQ, meanQ]
  · have hne : l ≠ [] := by
      rintro rfl
      simp_all
    have hm : meanQ l = c := meanQ_const hne h
    unfold varQ
    have hz : ∀ y ∈ l.map (fun x => (x - meanQ l) * (x - meanQ l)), y = 0 := by
      intro y hy
      obtain ⟨x, hx, rfl⟩ := List.mem_map.1 hy
      rw [h x hx, hm]
      ring
    rw [sum_all_eq hz, zero_mul, zero_div]

/-- A list of nonnegative rationals summing to zero is all zero. -/
theorem sum_nonneg_eq_zero {l : List ℚ} (hpos : ∀ x ∈ l, 0 ≤ x)
    (hsum : l.sum = 0) : ∀ x ∈ l, x = 0 := by
  induction l with
  | nil => simp
  | cons a xs ih =>
      have ha : 0 ≤ a := hpos a (List.mem_cons_self _ _)
      have hxs : ∀ x ∈ xs, 0 ≤ x := fun x hx => hpos x (List.mem_cons_of_mem _ hx)
      have hs : 0 ≤ xs.sum := List.sum_nonneg hxs
      rw [List.sum_cons] at hsum
      have ha0 : a = 0 := by linarith
      have hxs0 : xs.sum = 0 := by linarith
      intro x hx
      rcases List.mem_cons.1 hx with rfl | hx2
      · exact ha0
      · exact ih hxs hxs0 x hx2

/-- Zero variance forces every entry to equal the mean. -/
theorem varQ_zero_all_eq {l : List ℚ} (h : varQ l = 0) :
    ∀ x ∈ l, x = meanQ l := by
  rcases List.eq_nil_or_concat l with rfl | _
  · simp
  · have hne : l ≠ [] := by
      rintro rfl
      simp_all
    have hpos : 0 < l.length := List.length_pos.2 hne
    have hn : (l.length : ℚ) ≠ 0 := by positivity
    unfold varQ at h
    rcases div_eq_zero_iff.1 h with hs | hbad
    · intro x hx
      have hterm := sum_nonneg_eq_zero (l := l.map fun x => (x - meanQ l) * (x - meanQ l))
        (by
          intro y hy
          obtain ⟨z, hz, rfl⟩ := List.mem_map.1 hy
          exact mul_self_nonneg _) hs
        ((x - meanQ l) * (x - meanQ l)) (List.mem_map.2 ⟨x, hx, rfl⟩)
      have := mul_self_eq_zero.1 hterm
      linarith
    · exact absurd hbad hn

/-- With nonzero variance, every normalized value is a finite
`x / sqrt (varQ l)` quantity. -/
theorem normalizeFlat_rt {l : List ℚ} (hv : varQ l ≠ 0) :
    ∀ y ∈ normalizeFlat l, ∃ b2, y = FV.rt 0 b2 (varQ l) := by
  have hne : l ≠ [] := by
    rintro rfl
    exact hv (by simp [varQ, meanQ])
  have hdiv : divStd l = l.map (fun x => FV.rt 0 x (varQ l)) := by
    unfold divStd
    rw [if_neg hv]
  have hdm : ∀ x ∈ divStd l, ∃ b2, x = FV.rt 0 b2 (varQ l) := by
    intro x hx
    rw [hdiv] at hx
    obtain ⟨z, _, rfl⟩ := List.mem_map.1 hx
    exact ⟨z, rfl⟩
  have hdne : divStd l ≠ [] := by
    rw [hdiv]
    simpa using hne
  have hdnan : (divStd l).any FV.isNaN = false := by
    rw [List.any_eq_false]
    intro x hx
    obtain ⟨b2, rfl⟩ := hdm x hx
    simp [FV.isNaN]
  have hmed : ∃ b2, medianF (divStd l) = FV.rt 0 b2 (varQ l) := by
    refine medianF_closure (fun y => ∃ b2, y = FV.rt 0 b2 (varQ l)) ?_ _ hdne hdnan hdm
    rintro a b ⟨b1, rfl⟩ ⟨b2, rfl⟩
    refine ⟨(b1 + b2) / 2, ?_⟩
    simp [FV.add, FV.half]
  obtain ⟨m, hm⟩ := hmed
  intro y hy
  unfold normalizeFlat subMedian at hy
  rw [hm] at hy
  obtain ⟨x, hx, rfl⟩ := List.mem_map.1 hy
  obtain ⟨b2, rfl⟩ := hdm x hx
  refine ⟨b2 - m, ?_⟩
  simp [FV.sub, FV.add, FV.neg]
  ring

/-- Normalizing a constant list produces only NaN: the zero standard
deviation turns every entry into NaN or a shared infinity, and subtracting
the (NaN or infinite) median then yields NaN everywhere. -/
theorem normalizeFlat_const_nan {l : List ℚ} {c : ℚ} (h : ∀ x ∈ l, x = c) :
    ∀ y ∈ normalizeFlat l, y = FV.nan := by
  rcases List.eq_nil_or_concat l with rfl | _
  · simp [normalizeFlat, subMedian, divStd, varQ, meanQ]
  · have hne : l ≠ [] := by
      rintro rfl
      simp_all
    have hv : varQ l = 0 := varQ_const h
    have hdiv : divStd l =
        l.map (fun x => if x = 0 then FV.nan else FV.inf (decide (0 < x))) := by
      unfold divStd
      rw [if_pos hv]
    by_cases hc : c = 0
    · have hdm : ∀ x ∈ divStd l, x = FV.nan := by
        intro x hx
        rw [hdiv] at hx
        obtain ⟨z, hz, rfl⟩ := List.mem_map.1 hx
        rw [h z hz, hc]
        simp
      have hmed : medianF (divStd l) = FV.nan := by
        unfold medianF
        rw [if_neg, if_pos]
        · rw [List.any_eq_true]
          have hx0 : ∃ x, x ∈ divStd l := by
            rcases l with _ | ⟨a, as⟩
            · exact absurd rfl hne
            · rw [hdiv]
              exact ⟨_, List.mem_map.2 ⟨a, List.mem_cons_self _ _, rfl⟩⟩
          obtain ⟨x, hx⟩ := hx0
          exact ⟨x, hx, by rw [hdm x hx]; rfl⟩
        · have hdne : divStd l ≠ [] := by
            rw [hdiv]
            simpa using hne
          simpa [List.isEmpty_iff] using hdne
      intro y hy
      unfold normalizeFlat subMedian at hy
      rw [hmed] at hy
      obtain ⟨x, hx, rfl⟩ := List.mem_map.1 hy
      rw [hdm x hx]
      rfl
    · have hdm : ∀ x ∈ divStd l, x = FV.inf (decide (0 < c)) := by
        intro x hx
        rw [hdiv] at hx
        obtain ⟨z, hz, rfl⟩ := List.mem_map.1 hx
        rw [h z hz, if_neg hc]
      have hdne : divStd l ≠ [] := by
        rw [hdiv]
        simpa using hne
      have hdnan : (divStd l).any FV.isNaN = false := by
        rw [List.any_eq_false]
        intro x hx
        rw [hdm x hx]
        simp [FV.isNaN]
      have hmed : medianF (divStd l) = FV.inf (decide (0 < c)) := by
        refine medianF_closure (fun y => y = FV.inf (decide (0 < c))) ?_ _ hdne hdnan hdm
        rintro a b rfl rfl
        simp [FV.add, FV.half]
      intro y hy
      unfold normalizeFlat subMedian at hy
      rw [hmed] at hy
      obtain ⟨x, hx, rfl⟩ := List.mem_map.1 hy
      rw [hdm x hx]
      simp [FV.sub, FV.add, FV.neg]

/-- After the batch-level NaN sweep, a normalized sample has no NaN and no
Inf anywhere: entries are either finite `rt` quantities (positive variance)
or were NaN (zero variance, via the shared-infinity route) and got zeroed. -/
theorem normalizeFlat_sweep_clean (l : List ℚ) :
    ∀ y ∈ (normalizeFlat l).map (fun x => if x.isNaN then FV.q 0 else x),
      y.isNaN = false ∧ y.isInf = false := by
  intro y hy
  obtain ⟨x, hx, rfl⟩ := List.mem_map.1 hy
  by_cases hv : varQ l = 0
  · have hall := varQ_zero_all_eq hv
    have := normalizeFlat_const_nan hall x hx
    rw [this]
    simp [FV.isNaN, FV.isInf]
  · obtain ⟨b2, rfl⟩ := normalizeFlat_rt hv x hx
    simp [FV.isNaN, FV.isInf]

/-- Elements of a `zipWith` come from the two lists. -/
theorem mem_zipWith {α β γ : Type} {f : α → β → γ} {as : List α} {bs : List β}
    {z : γ} (hz : z ∈ List.zipWith f as bs) :
    ∃ a b2, a ∈ as ∧ b2 ∈ bs ∧ z = f a b2 := by
  induction as generalizing bs with
  | nil => simp at hz
  | cons a as ih =>
      cases bs with
      | nil => simp at hz
      | cons b bs =>
          rw [List.zipWith_cons_cons] at hz
          rcases List.mem_cons.1 hz with rfl | hz2
          · exact ⟨a, b, List.mem_cons_self _ _, List.mem_cons_self _ _, rfl⟩
          · obtain ⟨a2, b2, h1, h2, h3⟩ := ih hz2
            exact ⟨a2, b2, List.mem_cons_of_mem _ h1, List.mem_cons_of_mem _ h2, h3⟩

/-- Adding a finite (rational) noise sample preserves NaN/Inf-freeness. -/
theorem add_q_clean (x : FV) (n : ℚ)
    (h : x.isNaN = false ∧ x.isInf = false) :
    (FV.add x (FV.q n)).isNaN = false ∧ (FV.add x (FV.q n)).isInf = false := by
  cases x <;> simp_all [FV.add, FV.isNaN, FV.isInf]

/-- C5: a successful batch contains no NaN and no Inf anywhere in either
image stack, in particular when some raw input sample contained NaN or Inf
(those are sanitized by `np.nan_to_num` and by the batch-level sweep). -/
theorem c5_no_nan_inf (g : DataGenerator) (p : ℤ) (nu : List (List ℚ))
    (b : Batch) (hok : getItem g p nu = .ok b)
    (_hdirty : ∃ k ∈ resolveIdx g p, ∃ s, g.result_list[k]? = some s ∧
      ∃ x, (x ∈ s.1.flatten ∨ x ∈ s.2.flatten) ∧
        (x.isNaN = true ∨ x.isInf = true)) :
    (∀ row ∈ b.X, ∀ x ∈ row, x.isNaN = false ∧ x.isInf = false) ∧
    (∀ row ∈ b.Y, ∀ x ∈ row, x.isNaN = false ∧ x.isInf = false) := by
  obtain ⟨samples, rows, ls, hs, hr, hl, hbl, hbY, hbX⟩ := dataGeneration_ok hok
  have hbase : ∀ row ∈ rows.map
      (fun r => r.1.map (fun x => if x.isNaN then FV.q 0 else x)),
      ∀ x ∈ row, x.isNaN = false ∧ x.isInf = false := by
    intro row hrow x hx
    obtain ⟨r, hrmem, rfl⟩ := List.mem_map.1 hrow
    obtain ⟨sk, _, hbr⟩ := exMapM_ok_mem hr r hrmem
    obtain ⟨hr1, _, _, _, _⟩ := buildRow_ok hbr
    rw [hr1] at hx
    exact normalizeFlat_sweep_clean _ x hx
  constructor
  · intro row hrow x hx
    rw [hbX] at hrow
    split at hrow
    · unfold addNoiseB at hrow
      obtain ⟨xr, nr, hxr, _, rfl⟩ := mem_zipWith hrow
      obtain ⟨x0, n0, hx0, _, rfl⟩ := mem_zipWith hx
      exact add_q_clean x0 n0 (hbase xr hxr x0 hx0)
    · exact hbase row hrow x hx
  · intro row hrow x hx
    rw [hbY] at hrow
    obtain ⟨r, hrmem, rfl⟩ := List.mem_map.1 hrow
    obtain ⟨sk, _, hbr⟩ := exMapM_ok_mem hr r hrmem
    obtain ⟨_, _, hr2, _, _⟩ := buildRow_ok hbr
    rw [hr2] at hx
    exact normalizeFlat_sweep_clean _ x hx

/-- Every entry of the transpose is an entry of the original matrix. -/
theorem transposeM_entry_mem {α : Type} {m : List (List α)} {row : List α}
    {x : α} (hrow : row ∈ transposeM m) (hx : x ∈ row) : ∃ r ∈ m, x ∈ r := by
  unfold transposeM at hrow
  obtain ⟨j, _, rfl⟩ := List.mem_map.1 hrow
  obtain ⟨r, hr, hget⟩ := List.mem_filterMap.1 hx
  exact ⟨r, hr, List.getElem?_mem hget⟩

/-- Detrending a constant slice is exactly zero: the affine fit of a
constant is the constant itself. -/
theorem detrendRow_const {row : List ℚ} {c : ℚ} (h : ∀ x ∈ row, x = c) :
    ∀ y ∈ detrendRow row, y = 0 := by
  intro y hy
  unfold detrendRow at hy
  dsimp only at hy
  split at hy
  · exact List.eq_of_mem_replicate hy
  · next hgt =>
      have hn2 : 2 ≤ row.length := by omega
      have hnQ : (row.length : ℚ) ≠ 0 := by positivity
      have hxbar : row.sum / (row.length : ℚ) = c := by
        rw [sum_all_eq h, mul_div_assoc, div_self hnQ, mul_one]
      have hmem2 : ∀ p ∈ row.enum, (p : ℕ × ℚ).2 = c := by
        intro p hp
        rw [List.enum_eq_zip_range] at hp
        exact h p.2 (List.of_mem_zip hp).2
      have hsxy : (row.enum.map (fun p => (p.2 - c) *
          ((p.1 : ℚ) - ((row.length : ℚ) - 1) / 2))).sum = 0 := by
        have hz : ∀ t ∈ row.enum.map (fun p => (p.2 - c) *
            ((p.1 : ℚ) - ((row.length : ℚ) - 1) / 2)), t = 0 := by
          intro t ht
          obtain ⟨p, hp, rfl⟩ := List.mem_map.1 ht
          rw [hmem2 p hp]
          ring
        rw [sum_all_eq hz, zero_mul]
      simp only [List.mem_map] at hy
      obtain ⟨p, hp, rfl⟩ := hy
      rw [hxbar, hsxy, hmem2 p hp]
      simp

/-- A constant dispersion-time matrix normalizes (pre-sweep) to all NaN. -/
theorem processDT_const {m : Mat} {c : ℚ}
    (h : ∀ row ∈ m, ∀ x ∈ row, x = FV.q c) :
    ∀ y ∈ processDT m, y = FV.nan := by
  unfold processDT
  apply normalizeFlat_const_nan (c := c)
  intro x hx
  rw [List.mem_flatten] at hx
  obtain ⟨row2, hrow2, hx2⟩ := hx
  obtain ⟨r, hr, rfl⟩ := List.mem_map.1 hrow2
  obtain ⟨z, hz, rfl⟩ := List.mem_map.1 hx2
  rw [h r hr z hz]
  rfl

/-- A constant frequency-time matrix detrends to zero and then normalizes
(pre-sweep) to all NaN. -/
theorem processFT_const {m : Mat} {c : ℚ}
    (h : ∀ row ∈ m, ∀ x ∈ row, x = FV.q c) :
    ∀ y ∈ processFT m, y = FV.nan := by
  unfold processFT
  apply normalizeFlat_const_nan (c := 0)
  intro x hx
  rw [List.mem_flatten] at hx
  obtain ⟨row2, hrow2, hx2⟩ := hx
  obtain ⟨r2, hr2, rfl⟩ := List.mem_map.1 hrow2
  obtain ⟨r3, hr3, rfl⟩ := List.mem_map.1 hr2
  refine detrendRow_const (c := c) ?_ x hx2
  intro z hz
  obtain ⟨z0, hz0, rfl⟩ := List.mem_map.1 hz
  obtain ⟨r0, hr0, hz1⟩ := transposeM_entry_mem hr3 hz0
  obtain ⟨r1, hr1, rfl⟩ := List.mem_map.1 hr0
  obtain ⟨w, hw, rfl⟩ := List.mem_map.1 hz1
  rw [h r1 hr1 w hw]
  rfl

/-- C6: when the `j`-th resolved sample's raw matrix is constant (zero
variance), the whole pre-sweep normalized sample is NaN — the division by
the zero standard deviation is not remediated at the point of division —
and the corresponding stack row of the returned batch is all zeros (no NaN,
no Inf), remediated by the batch-level NaN sweep. -/
theorem c6_constant_sample (g : DataGenerator) (p : ℤ) (nu : List (List ℚ))
    (b : Batch) (j k : ℕ) (mft mdt : Mat)
    (hnz : g.noise = false)
    (hok : getItem g p nu = .ok b)
    (hk : (resolveIdx g p)[j]? = some k)
    (hs : g.result_list[k]? = some (mft, mdt)) :
    ((∃ c, ∀ row ∈ mft, ∀ x ∈ row, x = FV.q c) →
      (∀ y ∈ processFT mft, y = FV.nan) ∧
      ∃ rowX, b.X[j]? = some rowX ∧
        rowX.length = g.ft_dim.1 * g.ft_dim.2 * g.n_channels ∧
        ∀ x ∈ rowX, x = FV.q 0) ∧
    ((∃ c, ∀ row ∈ mdt, ∀ x ∈ row, x = FV.q c) →
      (∀ y ∈ processDT mdt, y = FV.nan) ∧
      ∃ rowY, b.Y[j]? = some rowY ∧
        rowY.length = g.dt_dim.1 * g.dt_dim.2 * g.n_channels ∧
        ∀ x ∈ rowY, x = FV.q 0) := by
  obtain ⟨samples, rows, ls, hsam, hr, hl, hbl, hbY, hbX⟩ := dataGeneration_ok hok
  obtain ⟨s0, hs1, hs2⟩ := exMapM_ok_get hsam j k hk
  rw [hs] at hs1
  injection hs1 with hs1
  rw [← hs1] at hs2
  obtain ⟨row, hrow1, hrow2⟩ := exMapM_ok_get hr j ((mft, mdt), k) (zip_getElem? hs2 hk)
  obtain ⟨hr1, hr1len, hr2, hr2len, _⟩ := buildRow_ok hrow1
  have hXform : b.X =
      rows.map (fun r => r.1.map (fun x => if x.isNaN then FV.q 0 else x)) := by
    rw [hbX, hnz]
    simp
  constructor
  · rintro ⟨c, hc⟩
    refine ⟨processFT_const hc, ?_⟩
    refine ⟨row.1.map (fun x => if x.isNaN then FV.q 0 else x), ?_, ?_, ?_⟩
    · rw [hXform, List.getElem?_map, hrow2]
      rfl
    · rw [List.length_map, hr1, hr1len]
    · intro x hx
      obtain ⟨x0, hx0, rfl⟩ := List.mem_map.1 hx
      rw [hr1] at hx0
      rw [processFT_const hc x0 hx0]
      rfl
  · rintro ⟨c, hc⟩
    refine ⟨processDT_const hc, ?_⟩
    refine ⟨row.2.1.map (fun x => if x.isNaN then FV.q 0 else x), ?_, ?_, ?_⟩
    · rw [hbY, List.getElem?_map, hrow2]
      rfl
    · rw [List.length_map, hr2, hr2len]
    · intro x hx
      obtain ⟨x0, hx0, rfl⟩ := List.mem_map.1 hx
      rw [hr2] at hx0
      rw [processDT_const hc x0 hx0]
      rfl

/-- The spec's wording of the sanitization step: "replace NaN/Inf with 0.0".
This is a refinement comparison definition transcribed from the spec's
words, to be compared with `nanToNum` (the behavior of `np.nan_to_num`,
which replaces Inf with the largest finite `float32`, not with `0.0`). -/
def specNanToNum : FV → ℚ
  | FV.q x => x
  | FV.rt _ _ _ => 0
  | FV.nan => 0
  | FV.inf _ => 0

/-- The dispersion-time pipeline as the spec words it (convert, replace
NaN/Inf with 0.0, divide by std, subtract median; no transpose, no
detrend).  Refinement comparison definition. -/
def specProcessDT (m : Mat) : List FV :=
  normalizeFlat ((m.map (fun r => r.map (fun x => specNanToNum (astype32 x)))).flatten)

/-- The frequency-time pipeline as the spec words it (transpose, convert,
replace NaN/Inf with 0.0, detrend, divide by std, subtract median).
Refinement comparison definition. -/
def specProcessFT (m : Mat) : List FV :=
  normalizeFlat
    (((((transposeM m).map (fun r => r.map astype32)).map
        (fun r => r.map specNanToNum)).map detrendRow).flatten)

/-- C2 counterexample: on the dispersion-time sample `[[+inf, -inf]]` the
code's transform and the spec's claimed transform disagree, because
`np.nan_to_num` replaces the infinities with `±3.4028235e38` (giving a
nonzero-variance sample that normalizes to `±1`), not with `0.0` (which
would give the all-NaN zero-variance path). -/
theorem c2_counterexample :
    processDT [[FV.inf true, FV.inf false]] ≠
      specProcessDT [[FV.inf true, FV.inf false]] := by
  decide

/-- Transposition commutes with entrywise maps. -/
theorem transposeM_map {α β : Type} (f : α → β) (m : List (List α)) :
    transposeM (m.map (fun r => r.map f)) = (transposeM m).map (fun r => r.map f) := by
  unfold transposeM
  have hhead : ((m.map (fun r => r.map f)).headD []).length = (m.headD []).length := by
    cases m with
    | nil => rfl
    | cons r rs => simp
  rw [hhead, List.map_map]
  apply List.map_congr_left
  intro j _
  simp only [Function.comp]
  rw [List.filterMap_map]
  have hcongr : ∀ r ∈ m,
      ((fun r : List β => r[j]?) ∘ fun r : List α => r.map f) r =
        (fun r : List α => (r[j]?).map f) r := by
    intro r _
    simp [List.getElem?_map]
  rw [List.filterMap_congr hcongr, ← List.map_filterMap]

/-- C2 amended: for every raw sample pair, the frequency-time output is
computed by, in order, transposing, converting to single precision,
replacing NaN with `0.0` and `±Inf` with the largest/lowest finite
`float32` value (`np.nan_to_num`), removing the best-fit linear trend,
dividing by the standard deviation, and subtracting the median; and the
dispersion-time output by converting, applying the same NaN/Inf
replacement, dividing by the standard deviation and subtracting the
median, with no transpose and no detrend. -/
theorem c2_amended_pipeline (mft mdt : Mat) :
    processFT mft = normalizeFlat
      (((((transposeM mft).map (fun r => r.map astype32)).map
          (fun r => r.map nanToNum)).map detrendRow).flatten) ∧
    processDT mdt = normalizeFlat
      ((mdt.map (fun r => r.map (fun x => nanToNum (astype32 x)))).flatten) := by
  constructor
  · unfold processFT
    rw [transposeM_map]
  · rfl

section Witnesses

/-- A small two-sample dataset of 2×2 matrices (batch size 2, shuffle and
noise off). -/
def gW : DataGenerator :=
  construct
    [([[FV.q 1, FV.q 2], [FV.q 3, FV.q 4]], [[FV.q 0, FV.q 1], [FV.q 1, FV.q 3]]),
     ([[FV.q 2, FV.q 0], [FV.q 1, FV.q 1]], [[FV.q 4, FV.q 2], [FV.q 2, FV.q 0]])]
    [0, 1] 2 (2, 2) (2, 2) 1 2 false false 0 1 []

/-- `gW` with the shuffle flag on and a concrete shuffle outcome. -/
def gWsh : DataGenerator :=
  construct
    [([[FV.q 1]], [[FV.q 2]]), ([[FV.q 3]], [[FV.q 4]])]
    [0, 1] 2 (1, 1) (1, 1) 1 2 true false 0 1 [1, 0]

/-- A one-sample dataset whose matrices contain NaN. -/
def gW5 : DataGenerator :=
  construct
    [([[FV.q 1, FV.nan], [FV.q 0, FV.q 2]], [[FV.q 5, FV.q 3], [FV.q 2, FV.nan]])]
    [0] 1 (2, 2) (2, 2) 1 2 false false 0 1 []

/-- A one-sample dataset whose matrices are the constant 2×2 matrix of 5.0
(the spec's concrete zero-variance scenario). -/
def gW6 : DataGenerator :=
  construct
    [([[FV.q 5, FV.q 5], [FV.q 5, FV.q 5]], [[FV.q 5, FV.q 5], [FV.q 5, FV.q 5]])]
    [1] 1 (2, 2) (2, 2) 1 2 false false 0 1 []

/-- A four-sample dataset with batch size 1, for negative-position slices. -/
def gW10 : DataGenerator :=
  construct
    [([[FV.q 1]], [[FV.q 1]]), ([[FV.q 2]], [[FV.q 2]]),
     ([[FV.q 3]], [[FV.q 3]]), ([[FV.q 4]], [[FV.q 4]])]
    [0, 0, 0, 0] 1 (1, 1) (1, 1) 1 2 false false 0 1 []

/-- The batch a successful `getItem` call returns. -/
def batchOf (g : DataGenerator) (p : ℤ) (nu : List (List ℚ)) : Batch :=
  match getItem g p nu with
  | .ok b => b
  | .error _ => ⟨[], [], []⟩

/-- Witness for C1 on the concrete generator `gW`. -/
theorem c1_witness :
    1 ≤ gW.batch_size ∧ gW.indexes.length = gW.result_list.length ∧
    gW.len = (gW.result_list.length + gW.batch_size - 1) / gW.batch_size ∧
    (∑ p in Finset.range gW.len, (resolveIdx gW (p : ℤ)).length) =
      gW.result_list.length :=
  ⟨by decide, by decide,
    (c1_batch_partition gW (by decide) (by decide)).1,
    (c1_batch_partition gW (by decide) (by decide)).2.2.2⟩

/-- Witness for C3 on the concrete generator `gWsh` with shuffle outcome
`[1, 0]`. -/
theorem c3_witness :
    ([1, 0] : List ℕ).Perm (List.range gWsh.result_list.length) ∧
    ((onEpochEnd gWsh [1, 0]).indexes).Perm (List.range gWsh.result_list.length) :=
  ⟨by decide, (c3_epoch_end_permutation gWsh [1, 0] (by decide)).1⟩

/-- Witness for C4 at the out-of-range position `5` on `gW`. -/
theorem c4_witness :
    (gW.len : ℤ) ≤ 5 ∧ resolveIdx gW 5 = [] ∧
    getItem gW 5 [] = .ok ⟨[], [], []⟩ :=
  ⟨by decide,
    ((c4_out_of_range gW 5 [] (by decide)).2 (by decide)).1,
    ((c4_out_of_range gW 5 [] (by decide)).2 (by decide)).2⟩

/-- Witness for C5 on `gW5`, whose single sample contains NaN in both
matrices. -/
theorem c5_witness :
    getItem gW5 0 [] = .ok (batchOf gW5 0 []) ∧
    (∃ k ∈ resolveIdx gW5 0, ∃ s, gW5.result_list[k]? = some s ∧
      ∃ x, (x ∈ s.1.flatten ∨ x ∈ s.2.flatten) ∧
        (x.isNaN = true ∨ x.isInf = true)) ∧
    ((∀ row ∈ (batchOf gW5 0 []).X, ∀ x ∈ row,
        x.isNaN = false ∧ x.isInf = false) ∧
     (∀ row ∈ (batchOf gW5 0 []).Y, ∀ x ∈ row,
        x.isNaN = false ∧ x.isInf = false)) :=
  have hok : getItem gW5 0 [] = .ok (batchOf gW5 0 []) := rfl
  have hd : ∃ k ∈ resolveIdx gW5 0, ∃ s, gW5.result_list[k]? = some s ∧
      ∃ x, (x ∈ s.1.flatten ∨ x ∈ s.2.flatten) ∧
        (x.isNaN = true ∨ x.isInf = true) :=
    ⟨0, by decide,
      ([[FV.q 1, FV.nan], [FV.q 0, FV.q 2]], [[FV.q 5, FV.q 3], [FV.q 2, FV.nan]]),
      by decide, FV.nan, Or.inl (by decide), Or.inl (by decide)⟩
  ⟨hok, hd, c5_no_nan_inf gW5 0 [] (batchOf gW5 0 []) hok hd⟩

/-- Witness for C6 on `gW6` (the constant 2×2 matrix of 5.0, target shape
(2,2), one channel). -/
theorem c6_witness :
    gW6.noise = false ∧
    getItem gW6 0 [] = .ok (batchOf gW6 0 []) ∧
    (resolveIdx gW6 0)[0]? = some 0 ∧
    gW6.result_list[0]? =
      some ([[FV.q 5, FV.q 5], [FV.q 5, FV.q 5]], [[FV.q 5, FV.q 5], [FV.q 5, FV.q 5]]) ∧
    (((∃ c, ∀ row ∈ [[FV.q 5, FV.q 5], [FV.q 5, FV.q 5]], ∀ x ∈ row, x = FV.q c) →
      (∀ y ∈ processFT [[FV.q 5, FV.q 5], [FV.q 5, FV.q 5]], y = FV.nan) ∧
      ∃ rowX, (batchOf gW6 0 []).X[0]? = some rowX ∧
        rowX.length = gW6.ft_dim.1 * gW6.ft_dim.2 * gW6.n_channels ∧
        ∀ x ∈ rowX, x = FV.q 0) ∧
    ((∃ c, ∀ row ∈ [[FV.q 5, FV.q 5], [FV.q 5, FV.q 5]], ∀ x ∈ row, x = FV.q c) →
      (∀ y ∈ processDT [[FV.q 5, FV.q 5], [FV.q 5, FV.q 5]], y = FV.nan) ∧
      ∃ rowY, (batchOf gW6 0 []).Y[0]? = some rowY ∧
        rowY.length = gW6.dt_dim.1 * gW6.dt_dim.2 * gW6.n_channels ∧
        ∀ x ∈ rowY, x = FV.q 0)) :=
  have hok : getItem gW6 0 [] = .ok (batchOf gW6 0 []) := rfl
  ⟨rfl, hok, by decide, by decide,
    c6_constant_sample gW6 0 [] (batchOf gW6 0 []) 0 0
      [[FV.q 5, FV.q 5], [FV.q 5, FV.q 5]] [[FV.q 5, FV.q 5], [FV.q 5, FV.q 5]]
      rfl hok (by decide) (by decide)⟩

/-- Witness for C8 at position 0 and offset 0 on `gW`. -/
theorem c8_witness :
    0 < gW.len ∧ getItem gW (0 : ℕ) [] = .ok (batchOf gW 0 []) ∧
    0 < (resolveIdx gW (0 : ℕ)).length ∧
    (∃ k, (resolveIdx gW ((0 : ℕ) : ℤ))[0]? = some k ∧
      gW.indexes[0 * gW.batch_size + 0]? = some k ∧
      ∃ lab, gW.labels[k]? = some lab ∧ 0 ≤ lab ∧ lab < (gW.n_classes : ℤ) ∧
        (batchOf gW 0 []).labels[0]? = some (oneHot gW.n_classes lab)) :=
  have hok : getItem gW ((0 : ℕ) : ℤ) [] = .ok (batchOf gW 0 []) := rfl
  ⟨by decide, hok, by decide,
    c8_label_alignment gW 0 [] (batchOf gW 0 []) (by decide) hok 0 (by decide)⟩

/-- Witness for C9 on `gW` (noise off, shuffle off). -/
theorem c9_witness :
    getItem gW 0 [[1, 2]] = getItem gW 0 [] ∧
    gW.indexes = List.range gW.result_list.length ∧
    resolveIdx gW ((0 : ℕ) : ℤ) =
      ((List.range gW.result_list.length).drop (0 * gW.batch_size)).take
        gW.batch_size :=
  have h := c9_noise_off_determinism
    [([[FV.q 1, FV.q 2], [FV.q 3, FV.q 4]], [[FV.q 0, FV.q 1], [FV.q 1, FV.q 3]]),
     ([[FV.q 2, FV.q 0], [FV.q 1, FV.q 1]], [[FV.q 4, FV.q 2], [FV.q 2, FV.q 0]])]
    [0, 1] 2 (2, 2) (2, 2) 1 2 false false 0 1 []
  ⟨h.1 rfl 0 [[1, 2]] [], (h.2 rfl).1, (h.2 rfl).2 0 (by decide)⟩

/-- Witness for C10 at position `-2` (and `-1`) on the four-sample,
batch-size-1 generator `gW10`. -/
theorem c10_witness :
    (-2 : ℤ) < 0 ∧
    resolveIdx gW10 (-2) =
      pySlice gW10.indexes ((-2) * gW10.batch_size) (((-2) + 1) * gW10.batch_size) ∧
    resolveIdx gW10 (-1) = [] ∧
    resolveIdx gW10 (-2) =
      (gW10.indexes.drop
        ((gW10.indexes.length : ℤ) + (-2) * gW10.batch_size).toNat).take
        gW10.batch_size :=
  ⟨by decide,
    (c10_negative_positions gW10 (-2) (by decide)).1,
    (c10_negative_positions gW10 (-2) (by decide)).2.1,
    (c10_negative_positions gW10 (-2) (by decide)).2.2 (by decide) (by decide)
      (by decide)⟩

end Witnesses

end Fetch
